import Mathlib

/-!
Verification of the parallel stencil-convolution engine of this repository
(filter.cpp, filter_phtreads.cpp, filter_MPI.cpp, filter_omp.cpp) and of the
bundled pthread sum benchmark (Ejercicio_02.cpp).

The C++ code computes per-pixel weighted sums in IEEE binary32 arithmetic
(float) and the benchmark accumulates in binary64 (double).  We embed those
computations exactly: a floating-point value is represented by a dyadic pair
(m, e) : Int x Int denoting m * 2 ^ e, and every arithmetic operation first
computes the exact result and then rounds the mantissa to the format's
precision (24 bits for float, 53 for double) with round-to-nearest, ties to
even -- which is exactly the IEEE behaviour for operands in the normal range.
Exponent overflow and subnormals are not modelled: every value reached in the
programs under verification (pixel samples, 3x3 kernel weights, their sums)
is far inside the normal range of both formats.
-/

/-! ## Bit lengths

A fuel-driven base-2 logarithm; the fuel n suffices because n < 2 ^ n.
-/

def log2fuel : ℕ → ℕ → ℕ
  | 0, _ => 0
  | f + 1, n => if 2 ≤ n then log2fuel f (n / 2) + 1 else 0

def nlog2 (n : ℕ) : ℕ := log2fuel n n

/-- Number of binary digits of a natural number (0 for 0). -/
def bitlen (n : ℕ) : ℕ := if n = 0 then 0 else nlog2 n + 1

theorem log2fuel_spec : ∀ (f n : ℕ), 1 ≤ n → n < 2 ^ f →
    2 ^ log2fuel f n ≤ n ∧ n < 2 ^ (log2fuel f n + 1) := by
  intro f
  induction f with
  | zero => intro n h1 h2; simp at h2; omega
  | succ f ih =>
    intro n h1 h2
    by_cases h : 2 ≤ n
    · have hm2 : n / 2 < 2 ^ f := by
        rw [Nat.div_lt_iff_lt_mul (by norm_num)]
        calc n < 2 ^ (f + 1) := h2
        _ = 2 ^ f * 2 := by ring
      have hm1 : 1 ≤ n / 2 := by omega
      obtain ⟨hl, hr⟩ := ih (n / 2) hm1 hm2
      simp only [log2fuel, if_pos h]
      have hp : 2 ^ (log2fuel f (n / 2) + 1) = 2 * 2 ^ log2fuel f (n / 2) := by ring
      have hp2 : 2 ^ (log2fuel f (n / 2) + 1 + 1) = 2 * 2 ^ (log2fuel f (n / 2) + 1) := by
        ring
      omega
    · simp only [log2fuel, if_neg h]
      simp
      omega

theorem nlog2_spec (n : ℕ) (h : 1 ≤ n) : 2 ^ nlog2 n ≤ n ∧ n < 2 ^ (nlog2 n + 1) :=
  log2fuel_spec n n h (Nat.lt_two_pow n)

theorem bitlen_le_iff (n k : ℕ) : bitlen n ≤ k ↔ n < 2 ^ k := by
  unfold bitlen
  by_cases h : n = 0
  · subst h; simp [Nat.pos_pow_of_pos]
  · have h1 : 1 ≤ n := by omega
    have ⟨hl, hr⟩ := nlog2_spec n h1
    simp only [if_neg h]
    constructor
    · intro hle
      exact lt_of_lt_of_le hr (Nat.pow_le_pow_right (by omega) hle)
    · intro hlt
      by_contra hc
      have : 2 ^ k ≤ 2 ^ nlog2 n := Nat.pow_le_pow_right (by omega) (by omega)
      omega

/-! ## Exactly-rounded binary floating point over dyadic pairs

A value (m, e) denotes the real number m * 2 ^ e.  The representation is not
canonical; all statements about buffers compare integers obtained after the
final conversion to int, exactly as the C++ code does.
-/

/-- A floating-point value: mantissa and binary exponent. -/
abbrev F := ℤ × ℤ

/-- Round-half-to-even division of an integer by 2 ^ s (floor division and
remainder give the two candidate multiples). -/
def rdiv2 (m : ℤ) (s : ℕ) : ℤ :=
  let d : ℤ := 2 ^ s
  let q := m / d
  let r := m % d
  if 2 * r < d then q else if d < 2 * r then q + 1
  else if q % 2 = 0 then q else q + 1

/-- Round a dyadic value to a mantissa of at most p binary digits,
round-to-nearest ties-to-even: the IEEE rounding of an exact intermediate
result to precision p, for values in the normal range. -/
def roundP (p : ℕ) (x : F) : F :=
  if bitlen x.1.natAbs ≤ p then x
  else (rdiv2 x.1 (bitlen x.1.natAbs - p), x.2 + (bitlen x.1.natAbs - p))

/-- IEEE binary32 multiplication: exact product, then rounding. -/
def fmul (a b : F) : F := roundP 24 (a.1 * b.1, a.2 + b.2)

/-- IEEE binary32 addition: align exponents, add exactly, then round. -/
def fadd (a b : F) : F :=
  if b.2 ≤ a.2 then roundP 24 (a.1 * 2 ^ (a.2 - b.2).toNat + b.1, b.2)
  else roundP 24 (a.1 + b.1 * 2 ^ (b.2 - a.2).toNat, a.2)

/-- Conversion int -> float (the implicit C conversion in pixel * weight). -/
def i2f (n : ℤ) : F := roundP 24 (n, 0)

/-- IEEE binary64 addition, used by the pthread sum benchmark. -/
def dadd (a b : F) : F :=
  if b.2 ≤ a.2 then roundP 53 (a.1 * 2 ^ (a.2 - b.2).toNat + b.1, b.2)
  else roundP 53 (a.1 + b.1 * 2 ^ (b.2 - a.2).toNat, a.2)

/-- Conversion int -> double (the implicit conversion in local_sum += A[i]). -/
def i2d (n : ℤ) : F := roundP 53 (n, 0)

/-- The C cast (int)x: truncation of the represented value toward zero. -/
def truncF (x : F) : ℤ :=
  if 0 ≤ x.2 then x.1 * 2 ^ x.2.toNat
  else if 0 ≤ x.1 then x.1 / 2 ^ (-x.2).toNat else -(-x.1 / 2 ^ (-x.2).toNat)

/-- Round the represented value to the nearest integer, ties to even.  This
is the natural-language reading of the round_to_int of the specification; it
is compared against the truncation the code performs. -/
def rndeF (x : F) : ℤ :=
  if 0 ≤ x.2 then x.1 * 2 ^ x.2.toNat else rdiv2 x.1 (-x.2).toNat

/-- Correctly rounded binary32 quotient of two positive integers: the value
of the C float literal 1/9.f used by the blur kernel table. -/
def fdivPos (n d : ℕ) : F :=
  let c : ℤ := (nlog2 n : ℤ) - (nlog2 d : ℤ)
  let E : ℤ := if 0 ≤ c ∧ d * 2 ^ c.toNat ≤ n ∨ c < 0 ∧ d ≤ n * 2 ^ (-c).toNat
    then c else c - 1
  let s : ℤ := 23 - E
  let na : ℕ := if 0 ≤ s then n * 2 ^ s.toNat else n
  let da : ℕ := if 0 ≤ s then d else d * 2 ^ (-s).toNat
  let q : ℕ := na / da
  let r : ℕ := na % da
  let m : ℕ := if 2 * r < da then q else if da < 2 * r then q + 1
    else if q % 2 = 0 then q else q + 1
  ((m : ℤ), E - 23)

theorem roundP_of_le (p : ℕ) (x : F) (h : bitlen x.1.natAbs ≤ p) : roundP p x = x := by
  simp [roundP, h]

theorem roundP_small (p : ℕ) (m e : ℤ) (h : m.natAbs < 2 ^ p) :
    roundP p (m, e) = (m, e) :=
  roundP_of_le p (m, e) ((bitlen_le_iff _ _).mpr h)

/-! ## Image data model and the convolution engine

From filter.cpp / filter_phtreads.cpp / filter_MPI.cpp (the class Image and
ConvolutionFilter are character-identical across the variants up to the loop
bounds of the region entry point).  The magic string only ever matters
through the derived channel count (P3 gives 3, anything else 1), so the
embedding stores channels directly.
-/

structure Image where
  channels : ℕ
  width : ℕ
  height : ℕ
  maxColor : ℤ
  pixels : List ℤ
  deriving DecidableEq, Repr

/-- The helper clampValue of every variant: clamp val into [minVal, maxVal],
checking the lower bound first. -/
def clampValue (val minVal maxVal : ℤ) : ℤ :=
  if val < minVal then minVal else if maxVal < val then maxVal else val

/-- Loop counter values of the C loop for (int v = s; v < e; v++). -/
def intRange (s e : ℤ) : List ℤ :=
  (List.range (e - s).toNat).map fun i : ℕ => s + (i : ℤ)

/-- The kernel tap offsets (ky, kx), both from -half to half, in the order of
the two nested C loops (ky outer, kx inner).  The code derives half from the
column count of the first kernel row and reuses it for the row direction. -/
def tapPairs (half : ℕ) : List (ℤ × ℤ) :=
  (intRange (-(half : ℤ)) (half + 1)).flatMap fun ky =>
    (intRange (-(half : ℤ)) (half + 1)).map fun kx => (ky, kx)

/-- Kernel table lookup kernel[ky + half][kx + half]. -/
def kerAt (ker : List (List F)) (half ky kx : ℤ) : F :=
  ((ker.getD (ky + half).toNat []).getD (kx + half).toNat ((0 : ℤ), (0 : ℤ)))

/-- The half width kw / 2 with kw = kernel[0].size(). -/
def kerHalf (ker : List (List F)) : ℕ := (ker.headD []).length / 2

/-- The bounds test of the evaluator: nx >= 0 && nx < width && ny >= 0 &&
ny < height. -/
def inB (img : Image) (nx ny : ℤ) : Prop :=
  0 ≤ nx ∧ nx < (img.width : ℤ) ∧ 0 ≤ ny ∧ ny < (img.height : ℤ)

instance (img : Image) (nx ny : ℤ) : Decidable (inB img nx ny) := by
  unfold inB; infer_instance

/-- Pixel fetch input.pixels[(ny * width + nx) * channels + c]. -/
def pixAt (img : Image) (nx ny : ℤ) (c : ℕ) : ℤ :=
  img.pixels.getD ((ny * img.width + nx) * img.channels + (c : ℤ)).toNat 0

/-- The accumulated float sum of the evaluator's two inner loops: sum starts
at 0.0f and each in-bounds tap adds pixel * weight in binary32; out-of-bounds
taps are skipped by the guard.  The nested ky / kx loops carry only the
accumulator, hence they equal one fold over the tap list in loop order. -/
def convSum (ker : List (List F)) (img : Image) (x y : ℤ) (c : ℕ) : F :=
  (tapPairs (kerHalf ker)).foldl
    (fun s t =>
      if inB img (x + t.2) (y + t.1) then
        fadd s (fmul (i2f (pixAt img (x + t.2) (y + t.1) c)) (kerAt ker (kerHalf ker) t.1 t.2))
      else s)
    ((0 : ℤ), (0 : ℤ))

/-- Spec-side form of the same sum, written from the specification: the
weighted sum over exactly the taps whose source coordinate is in bounds,
the out-of-range taps being omitted from the sum. -/
def specSum (ker : List (List F)) (img : Image) (x y : ℤ) (c : ℕ) : F :=
  ((tapPairs (kerHalf ker)).filter fun t => decide (inB img (x + t.2) (y + t.1))).foldl
    (fun s t =>
      fadd s (fmul (i2f (pixAt img (x + t.2) (y + t.1) c)) (kerAt ker (kerHalf ker) t.1 t.2)))
    ((0 : ℤ), (0 : ℤ))

/-- Output index (y * width + x) * channels + c of a written sample. -/
def outIdx (img : Image) (x y : ℤ) (c : ℕ) : ℕ :=
  ((y * img.width + x) * img.channels + (c : ℤ)).toNat

/-- The value the evaluator stores: clampValue((int)sum, 0, maxColor). -/
def outVal (ker : List (List F)) (img : Image) (x y : ℤ) (c : ℕ) : ℤ :=
  clampValue (truncF (convSum ker img x y c)) 0 img.maxColor

/-- All (x, y, c) triples visited by the loops for y in [startY, endY),
x in [startX, endX), c in [0, channels), in loop order. -/
def regionTriples (sx sy ex ey : ℤ) (ch : ℕ) : List (ℤ × ℤ × ℕ) :=
  (intRange sy ey).flatMap fun y =>
    (intRange sx ex).flatMap fun x =>
      (List.range ch).map fun c => (x, y, c)

/-- ConvolutionFilter::ApliRegion of filter_phtreads.cpp: for every visited
coordinate, store the clamped truncated sum into the output buffer.  The
loops carry no state besides the buffer, hence they equal one fold over the
visited triples. -/
def ApliRegion (ker : List (List F)) (input : Image) (out : List ℤ)
    (sx sy ex ey : ℤ) : List ℤ :=
  (regionTriples sx sy ex ey input.channels).foldl
    (fun buf t => buf.set (outIdx input t.1 t.2.1 t.2.2) (outVal ker input t.1 t.2.1 t.2.2))
    out

/-- ConvolutionFilter::applyRegion of filter_MPI.cpp: same body with the x
loop over the full width. -/
def applyRegion (ker : List (List F)) (input : Image) (out : List ℤ)
    (sy ey : ℤ) : List ℤ :=
  ApliRegion ker input out 0 sy input.width ey

/-- ConvolutionFilter::aplicar of filter.cpp (and filter_omp.cpp): output is
first a copy of the input, then every coordinate of the image is written. -/
def aplicar (ker : List (List F)) (input : Image) : Image :=
  { input with pixels := ApliRegion ker input input.pixels 0 0 input.width input.height }

/-- The blur kernel: nine copies of the float literal 1/9.f. -/
def blurKernel : List (List F) :=
  [[fdivPos 1 9, fdivPos 1 9, fdivPos 1 9],
   [fdivPos 1 9, fdivPos 1 9, fdivPos 1 9],
   [fdivPos 1 9, fdivPos 1 9, fdivPos 1 9]]

/-- The Laplace kernel table (all entries exactly representable). -/
def laplaceKernel : List (List F) :=
  [[(0, 0), (-1, 0), (0, 0)], [(-1, 0), (4, 0), (-1, 0)], [(0, 0), (-1, 0), (0, 0)]]

/-- The sharpen kernel table. -/
def sharpenKernel : List (List F) :=
  [[(0, 0), (-1, 0), (0, 0)], [(-1, 0), (5, 0), (-1, 0)], [(0, 0), (-1, 0), (0, 0)]]

/-- A kernel whose only nonzero weight is the float literal 1 at the center
(all table entries are the exactly representable literals 0 and 1). -/
def idKernel : List (List F) :=
  [[(0, 0), (0, 0), (0, 0)], [(0, 0), (1, 0), (0, 0)], [(0, 0), (0, 0), (0, 0)]]

/-! ## The pthread quadrant variant (filter_phtreads.cpp)

main splits the image at midX = width / 2, midY = height / 2 into the four
ThreadInfo records data[0..3].  The worker entry point Func then calls
ApliRegion(input, output, data->startX, data->startY, data->endY, data->endY):
the third argument passed is endY, not endX.  The model reproduces this call
faithfully.  The four workers write values that depend only on the shared
read-only input, so running them in thread-creation order is an exact model
of any interleaving of their stores.
-/

/-- The four ThreadInfo records (startX, startY, endX, endY) of main. -/
def quadData (w h : ℕ) : List (ℤ × ℤ × ℤ × ℤ) :=
  [((0 : ℤ), (0 : ℤ), ((w / 2 : ℕ) : ℤ), ((h / 2 : ℕ) : ℤ)),
   (((w / 2 : ℕ) : ℤ), (0 : ℤ), (w : ℤ), ((h / 2 : ℕ) : ℤ)),
   ((0 : ℤ), ((h / 2 : ℕ) : ℤ), ((w / 2 : ℕ) : ℤ), (h : ℤ)),
   (((w / 2 : ℕ) : ℤ), ((h / 2 : ℕ) : ℤ), (w : ℤ), (h : ℤ))]

/-- The region rectangle ApliRegion actually receives from Func:
(startX, startY, endY, endY). -/
def funcRegion (t : ℤ × ℤ × ℤ × ℤ) : ℤ × ℤ × ℤ × ℤ :=
  (t.1, t.2.1, t.2.2.2, t.2.2.2)

/-- One Func call: ApliRegion over the garbled rectangle. -/
def funcCall (ker : List (List F)) (input : Image) (buf : List ℤ)
    (t : ℤ × ℤ × ℤ × ℤ) : List ℤ :=
  ApliRegion ker input buf (funcRegion t).1 (funcRegion t).2.1
    (funcRegion t).2.2.1 (funcRegion t).2.2.2

/-- The whole pthread run: result = img, then the four Func calls. -/
def pthreadRun (ker : List (List F)) (img : Image) : Image :=
  { img with pixels :=
      (quadData img.width img.height).foldl (funcCall ker img) img.pixels }

/-- How many of the four worker rectangles contain coordinate (x, y). -/
def coverCount (w h : ℕ) (x y : ℤ) : ℕ :=
  ((quadData w h).map funcRegion).countP fun r =>
    decide (r.1 ≤ x ∧ x < r.2.2.1 ∧ r.2.1 ≤ y ∧ y < r.2.2.2)

/-! ## The MPI variant (filter_MPI.cpp)

Rank 0 computes sendcounts[i] = rows_i * width * channels with
rows_i = height / size + (i < height % size ? 1 : 0), and displs as the
running offset.  MPI_Scatterv hands rank i the slice of length sendcounts[i]
at offset displs[i]; the rank treats it as a local image of height rows_i,
copies it to its local output and runs applyRegion over all local rows; the
final MPI_Gatherv places each rank's buffer back at the same displacement
into a buffer of width * height * channels entries (resize zero-fills). -/

/-- Rows assigned to rank i: rowsPerProc + (i < remainder ? 1 : 0). -/
def rowsFor (h size i : ℕ) : ℕ := h / size + if i < h % size then 1 else 0

/-- sendcounts[i] of the rank-0 loop. -/
def sendcount (img : Image) (size i : ℕ) : ℕ :=
  rowsFor img.height size i * img.width * img.channels

/-- displs[i]: the offset accumulated over the previous ranks. -/
def displ (img : Image) (size i : ℕ) : ℕ :=
  ((List.range i).map (sendcount img size)).sum

/-- The local image rank i builds from the scattered slice. -/
def localInput (img : Image) (size i : ℕ) : Image :=
  { channels := img.channels, width := img.width, height := rowsFor img.height size i,
    maxColor := img.maxColor,
    pixels := (img.pixels.drop (displ img size i)).take (sendcount img size i) }

/-- Rank i's local output: localOutput = localInput, then
applyRegion(localInput, localOutput, 0, localRows). -/
def localOut (ker : List (List F)) (img : Image) (size i : ℕ) : List ℤ :=
  applyRegion ker (localInput img size i) (localInput img size i).pixels 0
    ((rowsFor img.height size i : ℕ) : ℤ)

/-- MPI_Gatherv placement: overwrite the receive buffer at a displacement. -/
def overwriteAt (buf : List ℤ) (off : ℕ) (xs : List ℤ) : List ℤ :=
  buf.take off ++ xs ++ buf.drop (off + xs.length)

/-- The gather loop: place every rank's local output at its displacement in
the zero-filled receive buffer of width * height * channels entries. -/
def mpiGather (ker : List (List F)) (img : Image) (size : ℕ) : List ℤ :=
  (List.range size).foldl
    (fun buf i => overwriteAt buf (displ img size i) (localOut ker img size i))
    (List.replicate (img.width * img.height * img.channels) 0)

/-- The assembled result of the whole distributed job on size ranks. -/
def mpiRun (ker : List (List F)) (img : Image) (size : ℕ) : Image :=
  { img with pixels := mpiGather ker img size }

/-! ## The pthread sum benchmark (Ejercicio_02.cpp)

Globals n = 5000000, thread_count = 10, sum : double.  Each worker with rank
r sums A[i] for i in [r * (n / thread_count), (r + 1) * (n / thread_count))
into a local double accumulator and then adds it, under a mutex, onto the
global sum; the mutex serializes the ten additions in an arbitrary order.
The array is filled with rand() % 1000, so entries lie in [0, 1000). -/

namespace Ej

def n : ℕ := 5000000

def thread_count : ℕ := 10

def my_n : ℕ := n / thread_count

def my_first (r : ℕ) : ℕ := my_n * r

/-- The indices summed by rank r, in loop order. -/
def blockIdx (r : ℕ) : List ℕ := List.range' (my_first r) my_n

/-- The local double accumulation of CalcularSuma for rank r. -/
def localSum (A : ℕ → ℤ) (r : ℕ) : F :=
  (blockIdx r).foldl (fun s i => dadd s (i2d (A i))) ((0 : ℤ), (0 : ℤ))

/-- The final global sum when the mutex grants the ten partial sums in the
order given by the list ps. -/
def globalSum (ps : List F) : F := ps.foldl dadd ((0 : ℤ), (0 : ℤ))

end Ej

/-! ## Generic list lemmas for write folds -/

theorem foldl_filter_guard {α β : Type} (p : α → Bool) (f : β → α → β) :
    ∀ (l : List α) (init : β),
      (l.filter p).foldl f init = l.foldl (fun s a => if p a then f s a else s) init := by
  intro l
  induction l with
  | nil => intro init; rfl
  | cons a l ih =>
    intro init
    cases hp : p a <;> simp [List.filter_cons, hp, ih]

theorem foldl_set_length {β : Type} (g : β → ℕ) (v : β → ℤ) :
    ∀ (l : List β) (buf : List ℤ),
      (l.foldl (fun b u => b.set (g u) (v u)) buf).length = buf.length := by
  intro l
  induction l with
  | nil => intro buf; rfl
  | cons a l ih => intro buf; rw [List.foldl_cons, ih, List.length_set]

theorem foldl_set_getD_of_ne {β : Type} (g : β → ℕ) (v : β → ℤ) :
    ∀ (l : List β) (buf : List ℤ) (k : ℕ), (∀ u ∈ l, g u ≠ k) →
      (l.foldl (fun b u => b.set (g u) (v u)) buf).getD k 0 = buf.getD k 0 := by
  intro l
  induction l with
  | nil => intro buf k _; rfl
  | cons a l ih =>
    intro buf k hne
    rw [List.foldl_cons, ih _ k fun u hu => hne u (List.mem_cons_of_mem a hu)]
    rw [List.getD_eq_getElem?_getD, List.getD_eq_getElem?_getD,
      List.getElem?_set_ne (hne a (List.mem_cons_self a l))]

theorem foldl_set_getD {β : Type} (g : β → ℕ) (v : β → ℤ) :
    ∀ (l : List β) (buf : List ℤ) (t : β), t ∈ l →
      (∀ u ∈ l, g u = g t → v u = v t) → g t < buf.length →
      (l.foldl (fun b u => b.set (g u) (v u)) buf).getD (g t) 0 = v t := by
  intro l
  induction l with
  | nil => intro _ _ h; exact absurd h (List.not_mem_nil _)
  | cons a l ih =>
    intro buf t ht hval hlt
    rw [List.foldl_cons]
    by_cases hl : ∃ u ∈ l, g u = g t
    · obtain ⟨u, hu, hgu⟩ := hl
      have : (l.foldl (fun b u => b.set (g u) (v u)) (buf.set (g a) (v a))).getD (g u) 0 = v u :=
        ih _ u hu
          (fun w hw hgw => by
            rw [hval w (List.mem_cons_of_mem a hw) (hgw.trans hgu),
              hval u (List.mem_cons_of_mem a hu) hgu])
          (by rw [List.length_set]; omega)
      rw [hgu] at this
      rw [this, hval u (List.mem_cons_of_mem a hu) hgu]
    · have hta : t = a := by
        rcases List.mem_cons.mp ht with h | h
        · exact h
        · exact absurd ⟨t, h, rfl⟩ hl
      subst hta
      rw [foldl_set_getD_of_ne g v l _ _ fun u hu hgu => hl ⟨u, hu, hgu⟩]
      rw [List.getD_eq_getElem?_getD, List.getElem?_set_self hlt]
      rfl

theorem set_getD_self (l : List ℤ) (k : ℕ) : l.set k (l.getD k 0) = l := by
  by_cases h : k < l.length
  · apply List.ext_getElem?
    intro n
    by_cases hn : k = n
    · subst hn
      rw [List.getElem?_set_self h, List.getD_eq_getElem _ _ h, List.getElem?_eq_getElem h]
    · exact List.getElem?_set_ne hn
  · exact List.set_eq_of_length_le (by omega)

theorem foldl_set_id {β : Type} (g : β → ℕ) (v : β → ℤ) :
    ∀ (l : List β) (buf : List ℤ), (∀ u ∈ l, v u = buf.getD (g u) 0) →
      l.foldl (fun b u => b.set (g u) (v u)) buf = buf := by
  intro l
  induction l with
  | nil => intro buf _; rfl
  | cons a l ih =>
    intro buf hv
    rw [List.foldl_cons, hv a (List.mem_cons_self a l), set_getD_self]
    exact ih buf fun u hu => hv u (List.mem_cons_of_mem a hu)


/-! ## Coordinates, indices and the per-pixel value of a region write -/

theorem mem_intRange (s e x : ℤ) : x ∈ intRange s e ↔ s ≤ x ∧ x < e := by
  unfold intRange
  rw [List.mem_map]
  constructor
  · rintro ⟨i, hi, rfl⟩
    rw [List.mem_range] at hi
    omega
  · rintro ⟨h1, h2⟩
    exact ⟨(x - s).toNat, List.mem_range.mpr (by omega), by omega⟩

theorem mem_regionTriples {sx sy ex ey : ℤ} {ch : ℕ} {t : ℤ × ℤ × ℕ} :
    t ∈ regionTriples sx sy ex ey ch ↔
      sx ≤ t.1 ∧ t.1 < ex ∧ sy ≤ t.2.1 ∧ t.2.1 < ey ∧ t.2.2 < ch := by
  obtain ⟨x, y, c⟩ := t
  unfold regionTriples
  rw [List.mem_flatMap]
  constructor
  · rintro ⟨y1, hy1, hmem⟩
    rw [List.mem_flatMap] at hmem
    obtain ⟨x1, hx1, hmem⟩ := hmem
    rw [List.mem_map] at hmem
    obtain ⟨c1, hc1, heq⟩ := hmem
    rw [List.mem_range] at hc1
    rw [mem_intRange] at hy1 hx1
    obtain ⟨rfl, rfl, rfl⟩ : x1 = x ∧ y1 = y ∧ c1 = c := by
      simpa [Prod.ext_iff] using heq
    exact ⟨hx1.1, hx1.2, hy1.1, hy1.2, hc1⟩
  · rintro ⟨h1, h2, h3, h4, h5⟩
    refine ⟨y, (mem_intRange _ _ _).mpr ⟨h3, h4⟩, ?_⟩
    rw [List.mem_flatMap]
    refine ⟨x, (mem_intRange _ _ _).mpr ⟨h1, h2⟩, ?_⟩
    rw [List.mem_map]
    exact ⟨c, List.mem_range.mpr h5, rfl⟩

theorem decompose_unique {A1 A2 c1 c2 m : ℤ} (h1 : 0 ≤ c1) (h2 : c1 < m)
    (h3 : 0 ≤ c2) (h4 : c2 < m) (he : A1 * m + c1 = A2 * m + c2) :
    A1 = A2 ∧ c1 = c2 := by
  have hA : A1 = A2 := by
    rcases lt_trichotomy A1 A2 with h | h | h
    · nlinarith
    · exact h
    · nlinarith
  refine ⟨hA, ?_⟩
  rw [hA] at he
  omega

theorem outIdx_nonneg_val (img : Image) {x y : ℤ} (c : ℕ)
    (hx0 : 0 ≤ x) (hy0 : 0 ≤ y) :
    0 ≤ (y * img.width + x) * img.channels + (c : ℤ) := by
  have h1 : 0 ≤ y * (img.width : ℤ) := mul_nonneg hy0 (by positivity)
  have h2 : 0 ≤ (y * img.width + x) * (img.channels : ℤ) :=
    mul_nonneg (by omega) (by positivity)
  omega

theorem outIdx_inj (img : Image) {x1 y1 x2 y2 : ℤ} {c1 c2 : ℕ}
    (hx1 : 0 ≤ x1) (hx1w : x1 < (img.width : ℤ)) (hy1 : 0 ≤ y1)
    (hc1 : c1 < img.channels)
    (hx2 : 0 ≤ x2) (hx2w : x2 < (img.width : ℤ)) (hy2 : 0 ≤ y2)
    (hc2 : c2 < img.channels)
    (he : outIdx img x1 y1 c1 = outIdx img x2 y2 c2) :
    x1 = x2 ∧ y1 = y2 ∧ c1 = c2 := by
  have e1 := outIdx_nonneg_val img c1 hx1 hy1
  have e2 := outIdx_nonneg_val img c2 hx2 hy2
  have heq : (y1 * img.width + x1) * img.channels + (c1 : ℤ)
      = (y2 * img.width + x2) * img.channels + (c2 : ℤ) := by
    unfold outIdx at he
    omega
  have hs1 := decompose_unique (Int.natCast_nonneg c1) (by exact_mod_cast hc1)
    (Int.natCast_nonneg c2) (by exact_mod_cast hc2) heq
  have hs2 := decompose_unique hx1 hx1w hx2 hx2w hs1.1
  have hc : c1 = c2 := by exact_mod_cast hs1.2
  exact ⟨hs2.2, hs2.1, hc⟩

theorem outIdx_lt (img : Image) {x y : ℤ} {c : ℕ}
    (hx0 : 0 ≤ x) (hxw : x < (img.width : ℤ)) (hy0 : 0 ≤ y)
    (hyh : y < (img.height : ℤ)) (hc : c < img.channels) :
    outIdx img x y c < img.width * img.height * img.channels := by
  have hcc : (c : ℤ) < img.channels := by exact_mod_cast hc
  have hrow : y * (img.width : ℤ) + x + 1 ≤ (img.width : ℤ) * img.height := by nlinarith
  have hch : (0 : ℤ) < img.channels := by omega
  have hfull : (y * img.width + x) * (img.channels : ℤ) + (c : ℤ)
      < (img.width : ℤ) * img.height * img.channels := by nlinarith
  have hN : ((img.width * img.height * img.channels : ℕ) : ℤ)
      = (img.width : ℤ) * img.height * img.channels := by push_cast; ring
  have hAN : (y * (img.width : ℤ) + x) * img.channels + (c : ℤ)
      < ((img.width * img.height * img.channels : ℕ) : ℤ) := by rw [hN]; exact hfull
  have e0 := outIdx_nonneg_val img c hx0 hy0
  clear hN hfull hrow
  unfold outIdx
  omega

/-- The central write lemma: inside a region that lies inside the image, the
buffer produced by ApliRegion holds, at the index of every region coordinate,
exactly the value clampValue((int)sum, 0, maxColor). -/
theorem ApliRegion_getD (ker : List (List F)) (img : Image) (buf : List ℤ)
    {sx sy ex ey x y : ℤ} {c : ℕ}
    (hlen : buf.length = img.width * img.height * img.channels)
    (hsx : 0 ≤ sx) (hex : ex ≤ (img.width : ℤ)) (hsy : 0 ≤ sy)
    (hey : ey ≤ (img.height : ℤ))
    (hx1 : sx ≤ x) (hx2 : x < ex) (hy1 : sy ≤ y) (hy2 : y < ey)
    (hc : c < img.channels) :
    (ApliRegion ker img buf sx sy ex ey).getD (outIdx img x y c) 0
      = outVal ker img x y c := by
  unfold ApliRegion
  have hmem : ((x, y, c) : ℤ × ℤ × ℕ) ∈ regionTriples sx sy ex ey img.channels :=
    mem_regionTriples.mpr ⟨hx1, hx2, hy1, hy2, hc⟩
  exact foldl_set_getD (fun t : ℤ × ℤ × ℕ => outIdx img t.1 t.2.1 t.2.2)
    (fun t : ℤ × ℤ × ℕ => outVal ker img t.1 t.2.1 t.2.2)
    (regionTriples sx sy ex ey img.channels) buf (x, y, c) hmem
    (fun u hu hgu => by
      obtain ⟨ux, uy, uc⟩ := u
      obtain ⟨hu1, hu2, hu3, hu4, hu5⟩ := mem_regionTriples.mp hu
      simp only at hu1 hu2 hu3 hu4 hu5 hgu ⊢
      obtain ⟨hq1, hq2, hq3⟩ := outIdx_inj img (by omega) (by omega) (by omega) hu5
        (by omega) (by omega) (by omega) hc hgu
      rw [hq1, hq2, hq3])
    (by
      show outIdx img x y c < buf.length
      rw [hlen]
      exact outIdx_lt img (by omega) (by omega) (by omega) (by omega) hc)

/-- Frame lemma: ApliRegion over a region inside the image does not change
any sample whose coordinate lies outside the region. -/
theorem ApliRegion_frame (ker : List (List F)) (img : Image) (buf : List ℤ)
    {sx sy ex ey x y : ℤ} {c : ℕ}
    (hsx : 0 ≤ sx) (hex : ex ≤ (img.width : ℤ)) (hsy : 0 ≤ sy)
    (hey : ey ≤ (img.height : ℤ))
    (hx0 : 0 ≤ x) (hxw : x < (img.width : ℤ)) (hy0 : 0 ≤ y)
    (hyh : y < (img.height : ℤ)) (hc : c < img.channels)
    (hout : ¬(sx ≤ x ∧ x < ex ∧ sy ≤ y ∧ y < ey)) :
    (ApliRegion ker img buf sx sy ex ey).getD (outIdx img x y c) 0
      = buf.getD (outIdx img x y c) 0 := by
  unfold ApliRegion
  exact foldl_set_getD_of_ne (fun t : ℤ × ℤ × ℕ => outIdx img t.1 t.2.1 t.2.2)
    (fun t : ℤ × ℤ × ℕ => outVal ker img t.1 t.2.1 t.2.2)
    (regionTriples sx sy ex ey img.channels) buf (outIdx img x y c)
    (fun u hu => by
      obtain ⟨ux, uy, uc⟩ := u
      obtain ⟨hu1, hu2, hu3, hu4, hu5⟩ := mem_regionTriples.mp hu
      simp only at hu1 hu2 hu3 hu4 hu5 ⊢
      intro hgu
      obtain ⟨hq1, hq2, hq3⟩ := outIdx_inj img (by omega) (by omega) (by omega) hu5
        hx0 hxw hy0 hc hgu
      exact hout ⟨by omega, by omega, by omega, by omega⟩)

/-- The guarded accumulation of the evaluator loops equals the spec-side
fold over the filtered in-bounds taps. -/
theorem convSum_eq_specSum (ker : List (List F)) (img : Image) (x y : ℤ) (c : ℕ) :
    convSum ker img x y c = specSum ker img x y c := by
  unfold convSum specSum
  rw [foldl_filter_guard]
  congr 1
  funext s t
  by_cases h : inB img (x + t.2) (y + t.1)
  · rw [if_pos h, if_pos (by simpa using h)]
  · rw [if_neg h, if_neg (by simpa using h)]

/-! ## Row-band partition arithmetic (sendcounts / displs of filter_MPI.cpp) -/

/-- First row owned by rank i: the sum of the rows of the previous ranks. -/
def rowStart (h size i : ℕ) : ℕ := ((List.range i).map (rowsFor h size)).sum

theorem rowStart_succ (h size i : ℕ) :
    rowStart h size (i + 1) = rowStart h size i + rowsFor h size i := by
  unfold rowStart
  rw [List.range_succ, List.map_append, List.sum_append]
  simp

theorem rowStart_closed (h size : ℕ) :
    ∀ k, rowStart h size k = k * (h / size) + min (h % size) k := by
  intro k
  induction k with
  | zero => simp [rowStart]
  | succ k ih =>
    rw [rowStart_succ, ih]
    unfold rowsFor
    rw [Nat.succ_mul]
    by_cases hk : k < h % size
    · rw [if_pos hk]; omega
    · rw [if_neg hk]; omega

theorem rowStart_total (h size : ℕ) (hs : 1 ≤ size) : rowStart h size size = h := by
  rw [rowStart_closed]
  have h2 : h % size < size := Nat.mod_lt _ (by omega)
  rw [min_eq_left (le_of_lt h2)]
  exact Nat.div_add_mod h size

theorem rowStart_mono (h size : ℕ) {i j : ℕ} (hij : i ≤ j) :
    rowStart h size i ≤ rowStart h size j := by
  induction hij with
  | refl => exact le_rfl
  | step hm ih =>
    rw [rowStart_succ]
    omega

theorem rowBand_coverage (h size : ℕ) :
    ∀ k r, r < rowStart h size k →
      ∃ i, i < k ∧ rowStart h size i ≤ r ∧ r < rowStart h size i + rowsFor h size i := by
  intro k
  induction k with
  | zero => intro r hr; simp [rowStart] at hr
  | succ k ih =>
    intro r hr
    rw [rowStart_succ] at hr
    by_cases hc : r < rowStart h size k
    · obtain ⟨i, h1, h2, h3⟩ := ih r hc
      exact ⟨i, by omega, h2, h3⟩
    · exact ⟨k, by omega, by omega, by omega⟩

/-! ## Gather correctness machinery (MPI_Gatherv placement) -/

theorem overwriteAt_append (A rest xs : List ℤ) (hx : xs.length ≤ rest.length) :
    overwriteAt (A ++ rest) A.length xs = A ++ (xs ++ rest.drop xs.length) := by
  unfold overwriteAt
  rw [List.take_left]
  have hdrop : (A ++ rest).drop (A.length + xs.length) = rest.drop xs.length := by
    rw [List.drop_append_eq_append_drop]
    have h1 : A.length ≤ A.length + xs.length := by omega
    rw [List.drop_eq_nil_of_le (by omega : A.length ≤ A.length + xs.length)]
    simp [Nat.add_sub_cancel_left]
  rw [hdrop, List.append_assoc]

theorem drop_replicate_int (k n : ℕ) :
    (List.replicate n (0 : ℤ)).drop k = List.replicate (n - k) (0 : ℤ) := by
  apply List.ext_getElem?
  intro i
  rw [List.getElem?_drop]
  by_cases h : k + i < n
  · rw [List.getElem?_replicate_of_lt h, List.getElem?_replicate_of_lt (by omega)]
  · rw [List.getElem?_eq_none (by simp; omega), List.getElem?_eq_none (by simp; omega)]

/-- Folding the Gatherv placements of ranks 0..k-1, with offsets equal to the
lengths already placed, turns the zero receive buffer into the concatenation
of the local outputs followed by the still untouched zeros. -/
theorem gather_fold (out : ℕ → List ℤ) (off : ℕ → ℕ) (N : ℕ) :
    ∀ k, (∀ i, i < k → off i = (((List.range i).map out).flatten).length) →
      (((List.range k).map out).flatten).length ≤ N →
      (List.range k).foldl (fun buf i => overwriteAt buf (off i) (out i))
          (List.replicate N (0 : ℤ))
        = ((List.range k).map out).flatten
            ++ List.replicate (N - (((List.range k).map out).flatten).length) 0 := by
  intro k
  induction k with
  | zero => simp
  | succ k ih =>
    intro hoff hlen
    have hlenk : (((List.range k).map out).flatten).length ≤ N := by
      rw [List.range_succ, List.map_append, List.flatten_append] at hlen
      simp at hlen
      simp
      omega
    rw [List.range_succ, List.foldl_append, ih (fun i hik => hoff i (by omega)) hlenk]
    simp only [List.foldl_cons, List.foldl_nil]
    rw [hoff k (by omega)]
    rw [overwriteAt_append _ _ _ (by
      rw [List.length_replicate]
      rw [List.range_succ, List.map_append, List.flatten_append] at hlen
      simp at hlen ⊢
      omega)]
    rw [drop_replicate_int, List.map_append, List.flatten_append]
    simp
    omega

theorem ApliRegion_length (ker : List (List F)) (img : Image) (out : List ℤ)
    (sx sy ex ey : ℤ) : (ApliRegion ker img out sx sy ex ey).length = out.length :=
  foldl_set_length _ _ _ out

theorem displ_succ (img : Image) (size i : ℕ) :
    displ img size (i + 1) = displ img size i + sendcount img size i := by
  unfold displ
  rw [List.range_succ, List.map_append, List.sum_append]
  simp

theorem displ_eq (img : Image) (size i : ℕ) :
    displ img size i = rowStart img.height size i * (img.width * img.channels) := by
  induction i with
  | zero => simp [displ, rowStart]
  | succ i ih =>
    rw [displ_succ, rowStart_succ, ih]
    unfold sendcount
    ring

theorem displ_add_sendcount_le (img : Image) (size i : ℕ) (hs : 1 ≤ size)
    (hi : i < size) :
    displ img size i + sendcount img size i ≤ img.width * img.height * img.channels := by
  have h1 : displ img size i + sendcount img size i
      = rowStart img.height size (i + 1) * (img.width * img.channels) := by
    rw [displ_eq, rowStart_succ]
    unfold sendcount
    ring
  have h2 : rowStart img.height size (i + 1) ≤ img.height := by
    have hmono := rowStart_mono img.height size (Nat.succ_le_of_lt hi)
    rw [rowStart_total img.height size hs] at hmono
    exact hmono
  calc displ img size i + sendcount img size i
      = rowStart img.height size (i + 1) * (img.width * img.channels) := h1
    _ ≤ img.height * (img.width * img.channels) :=
        Nat.mul_le_mul_right _ h2
    _ = img.width * img.height * img.channels := by ring

theorem localOut_length (ker : List (List F)) (img : Image) (size i : ℕ)
    (hs : 1 ≤ size) (hi : i < size)
    (hlen : img.pixels.length = img.width * img.height * img.channels) :
    (localOut ker img size i).length = sendcount img size i := by
  unfold localOut applyRegion
  rw [ApliRegion_length]
  show ((img.pixels.drop (displ img size i)).take (sendcount img size i)).length
    = sendcount img size i
  rw [List.length_take, List.length_drop, hlen]
  have h3 := displ_add_sendcount_le img size i hs hi
  exact Nat.min_eq_left (Nat.le_sub_of_add_le (by rw [Nat.add_comm]; exact h3))

theorem flatten_range_split (out : ℕ → List ℤ) :
    ∀ {k i : ℕ}, i < k →
      ∃ G, ((List.range k).map out).flatten
        = ((List.range i).map out).flatten ++ (out i ++ G) := by
  intro k
  induction k with
  | zero => intro i hik; omega
  | succ k ih =>
    intro i hik
    rcases Nat.lt_succ_iff_lt_or_eq.mp hik with hlt | heq
    · obtain ⟨G, hG⟩ := ih hlt
      refine ⟨G ++ out k, ?_⟩
      rw [List.range_succ, List.map_append, List.flatten_append, hG]
      simp
    · subst heq
      refine ⟨[], ?_⟩
      rw [List.range_succ, List.map_append, List.flatten_append]
      simp

theorem flatten_prefix_len (ker : List (List F)) (img : Image) (size : ℕ)
    (hs : 1 ≤ size)
    (hlen : img.pixels.length = img.width * img.height * img.channels) :
    ∀ j, j ≤ size →
      (((List.range j).map (localOut ker img size)).flatten).length
        = displ img size j := by
  intro j
  induction j with
  | zero => intro _; simp [displ]
  | succ j ih =>
    intro hj
    rw [List.range_succ, List.map_append, List.flatten_append, List.length_append,
      ih (by omega), displ_succ]
    simp [localOut_length ker img size j hs (by omega) hlen]

theorem mpiGather_slice (ker : List (List F)) (img : Image) (size i : ℕ)
    (hs : 1 ≤ size) (hi : i < size)
    (hlen : img.pixels.length = img.width * img.height * img.channels) :
    ((mpiGather ker img size).drop (displ img size i)).take (sendcount img size i)
      = localOut ker img size i := by
  have hN : (((List.range size).map (localOut ker img size)).flatten).length
      = img.width * img.height * img.channels := by
    rw [flatten_prefix_len ker img size hs hlen size le_rfl, displ_eq,
      rowStart_total _ _ hs]
    ring
  have hfold := gather_fold (localOut ker img size) (displ img size)
    (img.width * img.height * img.channels) size
    (fun j hj => (flatten_prefix_len ker img size hs hlen j (by omega)).symm)
    (by omega)
  unfold mpiGather
  rw [hfold, hN, Nat.sub_self]
  rw [List.replicate_zero, List.append_nil]
  obtain ⟨G, hG⟩ := flatten_range_split (localOut ker img size) hi
  rw [hG]
  have hpre : (((List.range i).map (localOut ker img size)).flatten).length
      = displ img size i := flatten_prefix_len ker img size hs hlen i (by omega)
  rw [← hpre, List.drop_left]
  rw [← localOut_length ker img size i hs hi hlen, List.take_left]

/-! ## Exactness of float arithmetic on the identity kernel -/

theorem i2f_small {v : ℤ} (h : v.natAbs < 2 ^ 24) : i2f v = (v, 0) :=
  roundP_small 24 v 0 h

theorem i2f_top : i2f (2 ^ 24) = (2 ^ 23, 1) := by decide

theorem fmul_zeroK (x : F) : fmul x (0, 0) = (0, x.2) := by
  unfold fmul
  rw [mul_zero, add_zero]
  exact roundP_small 24 0 x.2 (by norm_num)

theorem fmul_oneK {s : F} (h : s.1.natAbs < 2 ^ 24) : fmul s (1, 0) = s := by
  unfold fmul
  rw [mul_one, add_zero]
  exact roundP_small 24 s.1 s.2 h

/-- Invariant of the identity-kernel accumulation: the accumulator holds the
exact integer v, where the single value 2 ^ 24 is carried in the shifted
representation the int -> float conversion produces. -/
def IdAcc (s : F) (v : ℤ) : Prop :=
  (v.natAbs < 2 ^ 24 ∧ s = (v, 0)) ∨ (v = 2 ^ 24 ∧ s = (2 ^ 23, 1))

theorem roundP_top : roundP 24 ((2 : ℤ) ^ 24, 0) = (2 ^ 23, 1) := by decide

theorem i2f_exp01 {p : ℤ} (hp0 : 0 ≤ p) (hp : p ≤ 2 ^ 24) :
    (i2f p).2 = 0 ∨ (i2f p).2 = 1 := by
  by_cases hc : p < 2 ^ 24
  · left; rw [i2f_small (by omega)]
  · right
    have hpe : p = 2 ^ 24 := by omega
    rw [hpe, i2f_top]

theorem IdAcc_zero_tap {s : F} {v p : ℤ} (hs : IdAcc s v) (hp0 : 0 ≤ p)
    (hp : p ≤ 2 ^ 24) : fadd s (fmul (i2f p) (0, 0)) = s := by
  rw [fmul_zeroK]
  rcases i2f_exp01 hp0 hp with he | he <;> rw [he] <;>
    rcases hs with ⟨hv, rfl⟩ | ⟨hv, rfl⟩
  · show fadd (v, 0) (0, 0) = (v, 0)
    unfold fadd
    norm_num
    exact roundP_small 24 v 0 hv
  · show fadd (2 ^ 23, 1) (0, 0) = (2 ^ 23, 1)
    unfold fadd
    norm_num
    exact roundP_top
  · show fadd (v, 0) (0, 1) = (v, 0)
    unfold fadd
    norm_num
    exact roundP_small 24 v 0 hv
  · show fadd (2 ^ 23, 1) (0, 1) = (2 ^ 23, 1)
    unfold fadd
    norm_num
    exact roundP_small 24 (2 ^ 23) 1 (by norm_num)

theorem IdAcc_center {v : ℤ} (h0 : 0 ≤ v) (h : v ≤ 2 ^ 24) :
    IdAcc (fadd (0, 0) (fmul (i2f v) (1, 0))) v := by
  by_cases hc : v < 2 ^ 24
  · rw [i2f_small (by omega), fmul_oneK (by simp; omega)]
    left
    refine ⟨by omega, ?_⟩
    show fadd (0, 0) (v, 0) = (v, 0)
    unfold fadd
    norm_num
    exact roundP_small 24 v 0 (by omega)
  · have hv : v = 2 ^ 24 := by omega
    subst hv
    rw [i2f_top, fmul_oneK (by norm_num)]
    right
    refine ⟨rfl, ?_⟩
    show fadd (0, 0) (2 ^ 23, 1) = (2 ^ 23, 1)
    unfold fadd
    norm_num
    exact roundP_small 24 (2 ^ 23) 1 (by norm_num)

theorem IdAcc_trunc {s : F} {v : ℤ} (hs : IdAcc s v) : truncF s = v := by
  rcases hs with ⟨hv, rfl⟩ | ⟨hv, rfl⟩
  · show truncF (v, 0) = v
    unfold truncF
    norm_num
  · show truncF (2 ^ 23, 1) = v
    unfold truncF
    norm_num
    omega

theorem getD_bound (l : List ℤ) (k : ℕ) (P : ℤ → Prop) (hl : ∀ q ∈ l, P q)
    (h0 : P 0) : P (l.getD k 0) := by
  by_cases hk : k < l.length
  · rw [List.getD_eq_getElem _ _ hk]
    exact hl _ (List.getElem_mem hk)
  · rw [List.getD_eq_default _ _ (by omega)]
    exact h0

theorem tapPairs_one : tapPairs 1 =
    [(-1, -1), (-1, 0), (-1, 1), (0, -1), (0, 0), (0, 1), (1, -1), (1, 0), (1, 1)] := by
  decide

theorem pixAt_bound (img : Image) (nx ny : ℤ) (c : ℕ) (B : ℤ)
    (hpix : ∀ q ∈ img.pixels, 0 ≤ q ∧ q ≤ B) (hB : 0 ≤ B) :
    0 ≤ pixAt img nx ny c ∧ pixAt img nx ny c ≤ B := by
  unfold pixAt
  exact getD_bound _ _ _ hpix ⟨le_rfl, hB⟩

theorem convSum_idKernel (img : Image) {x y : ℤ} {c : ℕ}
    (hx0 : 0 ≤ x) (hxw : x < (img.width : ℤ)) (hy0 : 0 ≤ y) (hyh : y < (img.height : ℤ))
    (hpix : ∀ q ∈ img.pixels, 0 ≤ q ∧ q ≤ 2 ^ 24) :
    truncF (convSum idKernel img x y c) = pixAt img x y c := by
  have hhalf : kerHalf idKernel = 1 := rfl
  have hb := fun nx ny => pixAt_bound img nx ny c (2 ^ 24) hpix (by norm_num)
  unfold convSum
  rw [hhalf, tapPairs_one]
  simp only [List.foldl_cons, List.foldl_nil, Nat.cast_one]
  rw [show kerAt idKernel 1 (-1) (-1) = (0, 0) from by decide,
    show kerAt idKernel 1 (-1) 0 = (0, 0) from by decide,
    show kerAt idKernel 1 (-1) 1 = (0, 0) from by decide,
    show kerAt idKernel 1 0 (-1) = (0, 0) from by decide,
    show kerAt idKernel 1 0 0 = (1, 0) from by decide,
    show kerAt idKernel 1 0 1 = (0, 0) from by decide,
    show kerAt idKernel 1 1 (-1) = (0, 0) from by decide,
    show kerAt idKernel 1 1 0 = (0, 0) from by decide,
    show kerAt idKernel 1 1 1 = (0, 0) from by decide]
  have hz : IdAcc ((0 : ℤ), (0 : ℤ)) 0 := Or.inl ⟨by norm_num, rfl⟩
  have step : ∀ (s : F) (v : ℤ) (nx ny : ℤ) (g : Prop) [Decidable g], IdAcc s v →
      (if g then fadd s (fmul (i2f (pixAt img nx ny c)) (0, 0)) else s) = s := by
    intro s v nx ny g _ hs
    by_cases hg : g
    · rw [if_pos hg]
      exact IdAcc_zero_tap hs (hb nx ny).1 (hb nx ny).2
    · rw [if_neg hg]
  rw [step _ 0 _ _ _ hz, step _ 0 _ _ _ hz, step _ 0 _ _ _ hz, step _ 0 _ _ _ hz]
  have hcenter : inB img (x + 0) (y + 0) := by
    constructor
    · omega
    · exact ⟨by omega, by omega, by omega⟩
  rw [if_pos hcenter]
  have hmid : IdAcc (fadd (0, 0) (fmul (i2f (pixAt img (x + 0) (y + 0) c)) (1, 0)))
      (pixAt img (x + 0) (y + 0) c) :=
    IdAcc_center (hb _ _).1 (hb _ _).2
  rw [step _ _ _ _ _ hmid, step _ _ _ _ _ hmid, step _ _ _ _ _ hmid,
    step _ _ _ _ _ hmid]
  rw [IdAcc_trunc hmid]
  norm_num

theorem clampValue_of_bounds {v maxC : ℤ} (h0 : 0 ≤ v) (h1 : v ≤ maxC) :
    clampValue v 0 maxC = v := by
  unfold clampValue
  split_ifs <;> omega

theorem pixAt_outIdx (img : Image) (x y : ℤ) (c : ℕ) :
    pixAt img x y c = img.pixels.getD (outIdx img x y c) 0 := rfl

/-- With the identity kernel every written value equals the pixel already in
the buffer, so the whole apply pass is the identity on the image. -/
theorem aplicar_idKernel (img : Image)
    (hlen : img.pixels.length = img.width * img.height * img.channels)
    (hmax : 0 ≤ img.maxColor)
    (hrange : ∀ q ∈ img.pixels, 0 ≤ q ∧ q ≤ img.maxColor)
    (hsmall : ∀ q ∈ img.pixels, q ≤ 2 ^ 24) :
    aplicar idKernel img = img := by
  have hpix : ∀ q ∈ img.pixels, 0 ≤ q ∧ q ≤ 2 ^ 24 :=
    fun q hq => ⟨(hrange q hq).1, hsmall q hq⟩
  unfold aplicar
  have hpx : ApliRegion idKernel img img.pixels 0 0 img.width img.height
      = img.pixels := by
    unfold ApliRegion
    apply foldl_set_id
    intro u hu
    obtain ⟨ux, uy, uc⟩ := u
    obtain ⟨hu1, hu2, hu3, hu4, hu5⟩ := mem_regionTriples.mp hu
    simp only at hu1 hu2 hu3 hu4 hu5 ⊢
    unfold outVal
    rw [convSum_idKernel img hu1 hu2 hu3 hu4 hpix]
    have hbp := pixAt_bound img ux uy uc img.maxColor hrange hmax
    rw [clampValue_of_bounds hbp.1 hbp.2]
    exact pixAt_outIdx img ux uy uc
  rw [hpx]

/-! ## Exact double accumulation in the sum benchmark -/

theorem i2d_small {a : ℤ} (h : a.natAbs < 2 ^ 53) : i2d a = (a, 0) :=
  roundP_small 53 a 0 h

theorem dadd_int {a b : ℤ} (h : (a + b).natAbs < 2 ^ 53) :
    dadd (a, 0) (b, 0) = (a + b, 0) := by
  unfold dadd
  norm_num
  exact roundP_small 53 (a + b) 0 h

theorem sum_bound (B : ℤ) : ∀ (l : List ℤ), (∀ q ∈ l, 0 ≤ q ∧ q ≤ B) →
    0 ≤ l.sum ∧ l.sum ≤ l.length * B := by
  intro l
  induction l with
  | nil => simp
  | cons a l ih =>
    intro hq
    have ha := hq a (List.mem_cons_self a l)
    have hl := ih fun q hql => hq q (List.mem_cons_of_mem a hql)
    rw [List.sum_cons, List.length_cons]
    constructor
    · omega
    · have : ((l.length + 1 : ℕ) : ℤ) * B = l.length * B + B := by push_cast; ring
      omega

theorem sum_nonneg_of_mem : ∀ (l : List ℤ), (∀ q ∈ l, 0 ≤ q) → 0 ≤ l.sum := by
  intro l
  induction l with
  | nil => simp
  | cons a l ih =>
    intro hq
    rw [List.sum_cons]
    have := hq a (List.mem_cons_self a l)
    have := ih fun q hql => hq q (List.mem_cons_of_mem a hql)
    omega

theorem fold_i2d_exact : ∀ (l : List ℤ) (s : ℤ), (∀ q ∈ l, 0 ≤ q) → 0 ≤ s →
    s + l.sum < 2 ^ 53 →
    l.foldl (fun acc q => dadd acc (i2d q)) (s, 0) = (s + l.sum, 0) := by
  intro l
  induction l with
  | nil => intro s _ _ _; simp
  | cons a l ih =>
    intro s hq hs hbound
    rw [List.sum_cons] at hbound
    have ha : 0 ≤ a := hq a (List.mem_cons_self a l)
    have hls : 0 ≤ l.sum :=
      sum_nonneg_of_mem l fun q hql => hq q (List.mem_cons_of_mem a hql)
    rw [List.foldl_cons, i2d_small (by omega), dadd_int (by omega),
      ih (s + a) (fun q hql => hq q (List.mem_cons_of_mem a hql)) (by omega) (by omega),
      add_assoc, List.sum_cons]

theorem fold_dadd_pairs : ∀ (l : List F) (s : ℤ), (∀ u ∈ l, 0 ≤ u.1 ∧ u.2 = 0) →
    0 ≤ s → s + (l.map Prod.fst).sum < 2 ^ 53 →
    l.foldl dadd (s, 0) = (s + (l.map Prod.fst).sum, 0) := by
  intro l
  induction l with
  | nil => intro s _ _ _; simp
  | cons u l ih =>
    intro s hq hs hbound
    obtain ⟨u1, u2⟩ := u
    have hu := hq (u1, u2) (List.mem_cons_self _ l)
    simp only at hu
    obtain ⟨hu1, hu2⟩ := hu
    subst hu2
    rw [List.map_cons, List.sum_cons] at hbound
    have hls : 0 ≤ (l.map Prod.fst).sum := by
      apply sum_nonneg_of_mem
      intro q hql
      rw [List.mem_map] at hql
      obtain ⟨w, hw, rfl⟩ := hql
      exact (hq w (List.mem_cons_of_mem _ hw)).1
    rw [List.foldl_cons, dadd_int (by omega),
      ih (s + u1) (fun w hw => hq w (List.mem_cons_of_mem _ hw)) (by omega) (by omega),
      add_assoc, List.map_cons, List.sum_cons]

theorem my_n_val : Ej.my_n = 500000 := by decide

theorem blockIdx_length (r : ℕ) : (Ej.blockIdx r).length = Ej.my_n := by
  unfold Ej.blockIdx
  exact List.length_range' _ _ _

theorem localSum_exact (A : ℕ → ℤ) (hA : ∀ i, 0 ≤ A i ∧ A i < 1000) (r : ℕ) :
    Ej.localSum A r = (((Ej.blockIdx r).map A).sum, 0) := by
  unfold Ej.localSum
  have hfold : (Ej.blockIdx r).foldl (fun s i => dadd s (i2d (A i))) ((0 : ℤ), (0 : ℤ))
      = ((Ej.blockIdx r).map A).foldl (fun acc q => dadd acc (i2d q))
          ((0 : ℤ), (0 : ℤ)) := by
    rw [List.foldl_map]
  rw [hfold]
  have hmem : ∀ q ∈ (Ej.blockIdx r).map A, 0 ≤ q ∧ q ≤ 999 := by
    intro q hq
    rw [List.mem_map] at hq
    obtain ⟨w, _, rfl⟩ := hq
    exact ⟨(hA w).1, by have := (hA w).2; omega⟩
  have hsum := sum_bound 999 _ hmem
  rw [List.length_map, blockIdx_length, my_n_val] at hsum
  have := fold_i2d_exact ((Ej.blockIdx r).map A) 0
    (fun q hq => (hmem q hq).1) le_rfl (by norm_num at hsum ⊢; omega)
  rw [this, zero_add]

theorem blocks_sum (A : ℕ → ℤ) : ∀ k,
    ((List.range k).map fun r => ((Ej.blockIdx r).map A).sum).sum
      = ((List.range' 0 (k * Ej.my_n)).map A).sum := by
  intro k
  induction k with
  | zero => simp
  | succ k ih =>
    rw [List.range_succ, List.map_append, List.sum_append, ih]
    have hsplit : List.range' 0 ((k + 1) * Ej.my_n)
        = List.range' 0 (k * Ej.my_n) ++ List.range' (k * Ej.my_n) Ej.my_n := by
      have h0 := List.range'_append 0 (k * Ej.my_n) Ej.my_n 1
      simp only [one_mul, zero_add] at h0
      rw [show (k + 1) * Ej.my_n = Ej.my_n + k * Ej.my_n from by ring]
      exact h0.symm
    rw [hsplit, List.map_append, List.sum_append]
    unfold Ej.blockIdx Ej.my_first
    simp [Nat.mul_comm]

theorem range'_zero_eq_range (n : ℕ) : List.range' 0 n = List.range n :=
  (List.range_eq_range' n).symm

/-! ## Frame preservation across the pthread workers -/

theorem funcFold_frame (ker : List (List F)) (img : Image) :
    ∀ (ts : List (ℤ × ℤ × ℤ × ℤ)) (buf : List ℤ) {x y : ℤ} {c : ℕ},
      (∀ t ∈ ts, 0 ≤ (funcRegion t).1 ∧ (funcRegion t).2.2.1 ≤ (img.width : ℤ)
        ∧ 0 ≤ (funcRegion t).2.1 ∧ (funcRegion t).2.2.2 ≤ (img.height : ℤ)) →
      0 ≤ x → x < (img.width : ℤ) → 0 ≤ y → y < (img.height : ℤ) →
      c < img.channels →
      (∀ t ∈ ts, ¬((funcRegion t).1 ≤ x ∧ x < (funcRegion t).2.2.1
        ∧ (funcRegion t).2.1 ≤ y ∧ y < (funcRegion t).2.2.2)) →
      (ts.foldl (funcCall ker img) buf).getD (outIdx img x y c) 0
        = buf.getD (outIdx img x y c) 0 := by
  intro ts
  induction ts with
  | nil => intro buf x y c _ _ _ _ _ _ _; rfl
  | cons t ts ih =>
    intro buf x y c hvalid hx0 hxw hy0 hyh hc hout
    rw [List.foldl_cons]
    rw [ih _ (fun u hu => hvalid u (List.mem_cons_of_mem t hu)) hx0 hxw hy0 hyh hc
      (fun u hu => hout u (List.mem_cons_of_mem t hu))]
    obtain ⟨hv1, hv2, hv3, hv4⟩ := hvalid t (List.mem_cons_self t ts)
    exact ApliRegion_frame ker img buf hv1 hv2 hv3 hv4 hx0 hxw hy0 hyh hc
      (hout t (List.mem_cons_self t ts))

/-! ## The claims -/

theorem clampValue_props {v maxC : ℤ} (h : 0 ≤ maxC) :
    0 ≤ clampValue v 0 maxC ∧ clampValue v 0 maxC ≤ maxC
    ∧ (maxC < v → clampValue v 0 maxC = maxC)
    ∧ (v < 0 → clampValue v 0 maxC = 0) := by
  refine ⟨?_, ?_, fun hgt => ?_, fun hlt => ?_⟩ <;> unfold clampValue <;>
    split_ifs <;> omega

/-- C1: the shared-memory engine, the isolated-memory engine and the
sequential run are claimed to produce byte-identical buffers for every input
and kernel.  The code violates this twice.  On the 1-wide 2-tall all-90 image
under blur, the sequential run yields 20 in both rows, but the two-rank MPI
run scatters the two rows without halo data, so each rank sees a 1x1 image
and produces 10.  On the 2x2 all-90 image the sequential run yields 40
everywhere, but the pthread run leaves the top-right pixel at its input value
90 because Func passes endY where ApliRegion expects endX. -/
theorem c1_parallel_backends_diverge :
    (aplicar blurKernel ⟨1, 1, 2, 255, [90, 90]⟩).pixels = [20, 20]
    ∧ (mpiRun blurKernel ⟨1, 1, 2, 255, [90, 90]⟩ 2).pixels = [10, 10]
    ∧ (aplicar blurKernel ⟨1, 2, 2, 255, [90, 90, 90, 90]⟩).pixels = [40, 40, 40, 40]
    ∧ (pthreadRun blurKernel ⟨1, 2, 2, 255, [90, 90, 90, 90]⟩).pixels
        = [40, 90, 40, 40] := by
  decide

/-- C2, counterexample to the claim as stated: if round_to_int means rounding
to the nearest integer, the claimed per-pixel formula is wrong.  For the 1x1
image with the single sample 17 under blur, the in-bounds float sum is about
1.888; the code truncates it to 1 while the nearest integer is 2. -/
theorem c2_round_to_nearest_refuted :
    (aplicar blurKernel ⟨1, 1, 1, 255, [17]⟩).pixels
      ≠ [clampValue (rndeF (specSum blurKernel ⟨1, 1, 1, 255, [17]⟩ 0 0 0)) 0 255] := by
  decide

/-- C2 (amended): for every in-bounds output coordinate the evaluator writes
clampValue((int)sum, 0, maxValue), where the int cast truncates toward zero
-- not round-to-nearest -- and sum is the binary32 accumulation over exactly
the kernel taps whose source coordinate is inside the image; out-of-range
taps are omitted from the sum (specSum is the spec-side filtered sum). -/
theorem c2_engine_truncates_sum (ker : List (List F)) (img : Image) {x y : ℤ}
    {c : ℕ}
    (hlen : img.pixels.length = img.width * img.height * img.channels)
    (hx0 : 0 ≤ x) (hxw : x < (img.width : ℤ)) (hy0 : 0 ≤ y)
    (hyh : y < (img.height : ℤ)) (hc : c < img.channels) :
    (aplicar ker img).pixels.getD (outIdx img x y c) 0
      = clampValue (truncF (specSum ker img x y c)) 0 img.maxColor := by
  show (ApliRegion ker img img.pixels 0 0 img.width img.height).getD
      (outIdx img x y c) 0 = _
  rw [ApliRegion_getD ker img img.pixels hlen le_rfl le_rfl le_rfl le_rfl
    hx0 hxw hy0 hyh hc]
  unfold outVal
  rw [convSum_eq_specSum]

/-- C2 witness: the amended formula instantiated on the 1x1 image with the
sample 17 and the 3x3 blur kernel, the boundary case singled out by the
claim: only the center tap is in bounds. -/
theorem c2_engine_truncates_sum_witness :
    (aplicar blurKernel ⟨1, 1, 1, 255, [17]⟩).pixels.getD
        (outIdx ⟨1, 1, 1, 255, [17]⟩ 0 0 0) 0
      = clampValue (truncF (specSum blurKernel ⟨1, 1, 1, 255, [17]⟩ 0 0 0)) 0 255 :=
  c2_engine_truncates_sum blurKernel ⟨1, 1, 1, 255, [17]⟩ (by decide) (by decide)
    (by decide) (by decide) (by decide) (by decide)

/-- Everything C3 requires of the row-band partition of height rows over
size workers: regions are pairwise disjoint, they cover [0, height), they
stay inside [0, height), their sizes differ by at most one row, and none is
empty when the worker count does not exceed the height. -/
def RowBandOk (height size : ℕ) : Prop :=
  (∀ i j r, i < size → j < size →
      rowStart height size i ≤ r → r < rowStart height size i + rowsFor height size i →
      rowStart height size j ≤ r → r < rowStart height size j + rowsFor height size j →
      i = j)
  ∧ (∀ r, r < height → ∃ i, i < size ∧ rowStart height size i ≤ r
      ∧ r < rowStart height size i + rowsFor height size i)
  ∧ (∀ i r, i < size → rowStart height size i ≤ r →
      r < rowStart height size i + rowsFor height size i → r < height)
  ∧ (∀ i j, i < size → j < size → rowsFor height size i ≤ rowsFor height size j + 1)
  ∧ (size ≤ height → ∀ i, i < size → 0 < rowsFor height size i)

/-- C3: for every height > 0 and workerCount >= 1 the row-band partition of
filter_MPI.cpp (floor(height/size) rows each, one extra for the first
height mod size ranks) is a valid tiling of [0, height). -/
theorem c3_rowband_partition (height size : ℕ) (hh : 0 < height) (hs : 1 ≤ size) :
    RowBandOk height size := by
  refine ⟨?_, ?_, ?_, ?_, ?_⟩
  · intro i j r hi hj h1 h2 h3 h4
    by_contra hne
    rcases Nat.lt_or_ge i j with hij | hij
    · have hm := rowStart_mono height size (Nat.succ_le_of_lt hij)
      simp only [Nat.succ_eq_add_one] at hm
      rw [rowStart_succ] at hm
      omega
    · have hji : j < i := by omega
      have hm := rowStart_mono height size (Nat.succ_le_of_lt hji)
      simp only [Nat.succ_eq_add_one] at hm
      rw [rowStart_succ] at hm
      omega
  · intro r hr
    have hcov := rowBand_coverage height size size r
      (by rw [rowStart_total height size hs]; exact hr)
    obtain ⟨i, h1, h2, h3⟩ := hcov
    exact ⟨i, h1, h2, h3⟩
  · intro i r hi h1 h2
    have hm := rowStart_mono height size (Nat.succ_le_of_lt hi)
    rw [rowStart_total height size hs] at hm
    simp only [Nat.succ_eq_add_one] at hm
    have hsucc := rowStart_succ height size i
    omega
  · intro i j _ _
    unfold rowsFor
    split_ifs <;> omega
  · intro hsh i hi
    unfold rowsFor
    have h1 : 1 ≤ height / size := (Nat.one_le_div_iff (by omega)).mpr hsh
    split_ifs <;> omega

/-- C3 witness: worker counts 1, 3 and 7 on the 10-row image of the claim
all receive valid tilings. -/
theorem c3_rowband_partition_witness :
    RowBandOk 10 1 ∧ RowBandOk 10 3 ∧ RowBandOk 10 7 :=
  ⟨c3_rowband_partition 10 1 (by norm_num) (by norm_num),
   c3_rowband_partition 10 3 (by norm_num) (by norm_num),
   c3_rowband_partition 10 7 (by norm_num) (by norm_num)⟩

/-- C4: the four regions the pthread workers actually compute are claimed to
tile the image, every sample written exactly once.  They do not: Func hands
ApliRegion the quadruple (startX, startY, endY, endY), so on the 2x2 image
the coordinate (1, 0) is computed by no worker and (1, 1) by two. -/
theorem c4_quadrants_do_not_tile : coverCount 2 2 1 0 = 0 ∧ coverCount 2 2 1 1 = 2 := by
  decide

/-- C5, counterexample: on the 4x4 all-100 grayscale image under blur the
corner pixel (0, 0) is 44, not 100 -- the omitted out-of-range taps are not
renormalised, so a corner sums only four 100/9 contributions. -/
theorem c5_uniform_blur_refuted :
    (aplicar blurKernel ⟨1, 4, 4, 255, List.replicate 16 100⟩).pixels.getD 0 0 ≠ 100 := by
  decide

/-- C5 (amended): on the 4x4 all-100 grayscale image with maxValue 255 the
blur output is 100 at the four interior pixels but 66 at edge pixels (six
in-bounds taps) and 44 at corner pixels (four in-bounds taps): uniformity is
not preserved at the border because omitted taps leave the weights
unrenormalised. -/
theorem c5_uniform_blur_borders :
    (aplicar blurKernel ⟨1, 4, 4, 255, List.replicate 16 100⟩).pixels
      = [44, 66, 66, 44, 66, 100, 100, 66, 66, 100, 100, 66, 44, 66, 66, 44] := by
  decide

/-- C6, counterexample: the identity-like kernel does not reproduce every
buffer whose samples lie in [0, maxValue].  With maxValue = 2 ^ 24 + 1 and a
single sample 2 ^ 24 + 1, the int -> float conversion rounds the sample to
2 ^ 24 (ties to even on the 25th bit), so the output differs from the
input. -/
theorem c6_identity_refuted :
    (aplicar idKernel ⟨1, 1, 1, 16777217, [16777217]⟩).pixels ≠ [16777217] := by
  decide

/-- C6 (amended): a kernel whose only nonzero weight is the float literal 1
at the center reproduces the input exactly, for every buffer whose samples
lie in [0, maxValue] and do not exceed 2 ^ 24 (the largest range on which
the int -> float -> int round trip of the evaluator is lossless; every legal
PNM sample is far below it). -/
theorem c6_identity_reproduces (img : Image)
    (hlen : img.pixels.length = img.width * img.height * img.channels)
    (hmax : 0 ≤ img.maxColor)
    (hrange : ∀ q ∈ img.pixels, 0 ≤ q ∧ q ≤ img.maxColor)
    (hsmall : ∀ q ∈ img.pixels, q ≤ 2 ^ 24) :
    aplicar idKernel img = img :=
  aplicar_idKernel img hlen hmax hrange hsmall

/-- C6 witness: the identity kernel reproduces a concrete 2x1 image. -/
theorem c6_identity_reproduces_witness :
    aplicar idKernel ⟨1, 2, 1, 255, [7, 200]⟩ = (⟨1, 2, 1, 255, [7, 200]⟩ : Image) :=
  c6_identity_reproduces ⟨1, 2, 1, 255, [7, 200]⟩ (by decide) (by decide)
    (by decide) (by decide)

/-- C7: every sample the engine writes is clampValue((int)sum, 0, maxColor),
hence lies in [0, maxColor]; a sum truncating above maxColor is written as
maxColor and a sum truncating below 0 is written as 0 (saturation, never
wrap-around). -/
theorem c7_output_within_range (ker : List (List F)) (img : Image) {x y : ℤ}
    {c : ℕ}
    (hlen : img.pixels.length = img.width * img.height * img.channels)
    (hmax : 0 ≤ img.maxColor)
    (hx0 : 0 ≤ x) (hxw : x < (img.width : ℤ)) (hy0 : 0 ≤ y)
    (hyh : y < (img.height : ℤ)) (hc : c < img.channels) :
    0 ≤ (aplicar ker img).pixels.getD (outIdx img x y c) 0
    ∧ (aplicar ker img).pixels.getD (outIdx img x y c) 0 ≤ img.maxColor
    ∧ (img.maxColor < truncF (convSum ker img x y c) →
        (aplicar ker img).pixels.getD (outIdx img x y c) 0 = img.maxColor)
    ∧ (truncF (convSum ker img x y c) < 0 →
        (aplicar ker img).pixels.getD (outIdx img x y c) 0 = 0) := by
  have hv : (aplicar ker img).pixels.getD (outIdx img x y c) 0
      = clampValue (truncF (convSum ker img x y c)) 0 img.maxColor := by
    show (ApliRegion ker img img.pixels 0 0 img.width img.height).getD
        (outIdx img x y c) 0 = _
    rw [ApliRegion_getD ker img img.pixels hlen le_rfl le_rfl le_rfl le_rfl
      hx0 hxw hy0 hyh hc]
    rfl
  rw [hv]
  exact clampValue_props hmax

/-- C7 witness: the sharpen kernel on the 2x1 image [0, 255] saturates the
second pixel, whose weighted sum 1275 exceeds maxValue = 255. -/
theorem c7_output_within_range_witness :
    0 ≤ (aplicar sharpenKernel ⟨1, 2, 1, 255, [0, 255]⟩).pixels.getD
        (outIdx ⟨1, 2, 1, 255, [0, 255]⟩ 1 0 0) 0
    ∧ (aplicar sharpenKernel ⟨1, 2, 1, 255, [0, 255]⟩).pixels.getD
        (outIdx ⟨1, 2, 1, 255, [0, 255]⟩ 1 0 0) 0 ≤ 255
    ∧ ((255 : ℤ) < truncF (convSum sharpenKernel ⟨1, 2, 1, 255, [0, 255]⟩ 1 0 0) →
        (aplicar sharpenKernel ⟨1, 2, 1, 255, [0, 255]⟩).pixels.getD
          (outIdx ⟨1, 2, 1, 255, [0, 255]⟩ 1 0 0) 0 = 255)
    ∧ (truncF (convSum sharpenKernel ⟨1, 2, 1, 255, [0, 255]⟩ 1 0 0) < 0 →
        (aplicar sharpenKernel ⟨1, 2, 1, 255, [0, 255]⟩).pixels.getD
          (outIdx ⟨1, 2, 1, 255, [0, 255]⟩ 1 0 0) 0 = 0) :=
  c7_output_within_range sharpenKernel ⟨1, 2, 1, 255, [0, 255]⟩ (by decide)
    (by decide) (by decide) (by decide) (by decide) (by decide) (by decide)

/-- C8: the gather of the isolated-memory mode splices rank i's local output
into the final buffer at exactly the displacement and length the partitioner
assigned to rank i (the gather uses the very sendcounts/displs arrays of the
scatter), and that displacement is precisely the first owned row times
width * channels, so every rank's rows land in row-major position. -/
theorem c8_gather_matches_scatter (ker : List (List F)) (img : Image)
    (size i : ℕ) (hs : 1 ≤ size) (hi : i < size)
    (hlen : img.pixels.length = img.width * img.height * img.channels) :
    ((mpiRun ker img size).pixels.drop (displ img size i)).take (sendcount img size i)
        = localOut ker img size i
    ∧ displ img size i = rowStart img.height size i * (img.width * img.channels) :=
  ⟨mpiGather_slice ker img size i hs hi hlen, displ_eq img size i⟩

/-- C8 witness: the two-rank gather of the 1x2 blur job places each rank's
single-row output at its own row. -/
theorem c8_gather_matches_scatter_witness :
    ((mpiRun blurKernel ⟨1, 1, 2, 255, [90, 90]⟩ 2).pixels.drop
          (displ ⟨1, 1, 2, 255, [90, 90]⟩ 2 1)).take
        (sendcount ⟨1, 1, 2, 255, [90, 90]⟩ 2 1)
      = localOut blurKernel ⟨1, 1, 2, 255, [90, 90]⟩ 2 1
    ∧ displ ⟨1, 1, 2, 255, [90, 90]⟩ 2 1
      = rowStart 2 2 1 * (1 * 1) :=
  c8_gather_matches_scatter blurKernel ⟨1, 1, 2, 255, [90, 90]⟩ 2 1 (by decide)
    (by decide) (by decide)

/-- C9: region-restricted application is frame-preserving -- for every
kernel, buffer and region inside the image, ApliRegion leaves every sample
whose coordinate lies outside the region unchanged; consequently, since the
pthread variant starts from result = img, every in-bounds coordinate
covered by none of the four worker rectangles still holds its input value in
the final buffer. -/
theorem c9_frame_preservation :
    (∀ (ker : List (List F)) (img : Image) (buf : List ℤ) (sx sy ex ey x y : ℤ)
        (c : ℕ),
        0 ≤ sx → ex ≤ (img.width : ℤ) → 0 ≤ sy → ey ≤ (img.height : ℤ) →
        0 ≤ x → x < (img.width : ℤ) → 0 ≤ y → y < (img.height : ℤ) →
        c < img.channels →
        ¬(sx ≤ x ∧ x < ex ∧ sy ≤ y ∧ y < ey) →
        (ApliRegion ker img buf sx sy ex ey).getD (outIdx img x y c) 0
          = buf.getD (outIdx img x y c) 0)
    ∧ (∀ (ker : List (List F)) (img : Image) (x y : ℤ) (c : ℕ),
        (∀ t ∈ quadData img.width img.height,
          0 ≤ (funcRegion t).1 ∧ (funcRegion t).2.2.1 ≤ (img.width : ℤ)
          ∧ 0 ≤ (funcRegion t).2.1 ∧ (funcRegion t).2.2.2 ≤ (img.height : ℤ)) →
        0 ≤ x → x < (img.width : ℤ) → 0 ≤ y → y < (img.height : ℤ) →
        c < img.channels →
        (∀ t ∈ quadData img.width img.height,
          ¬((funcRegion t).1 ≤ x ∧ x < (funcRegion t).2.2.1
            ∧ (funcRegion t).2.1 ≤ y ∧ y < (funcRegion t).2.2.2)) →
        (pthreadRun ker img).pixels.getD (outIdx img x y c) 0
          = img.pixels.getD (outIdx img x y c) 0) := by
  constructor
  · intro ker img buf sx sy ex ey x y c h1 h2 h3 h4 h5 h6 h7 h8 h9 h10
    exact ApliRegion_frame ker img buf h1 h2 h3 h4 h5 h6 h7 h8 h9 h10
  · intro ker img x y c hvalid h5 h6 h7 h8 h9 hout
    show ((quadData img.width img.height).foldl (funcCall ker img)
        img.pixels).getD (outIdx img x y c) 0 = _
    exact funcFold_frame ker img _ img.pixels hvalid h5 h6 h7 h8 h9 hout

/-- C9 witness: on the 2x2 all-90 image, coordinate (1, 0) lies outside the
top-left worker rectangle, so one ApliRegion call leaves it untouched in a
scratch buffer, and it is covered by none of the four garbled worker
rectangles, so the whole pthread run leaves it at its input value 90. -/
theorem c9_frame_preservation_witness :
    (ApliRegion blurKernel ⟨1, 2, 2, 255, [90, 90, 90, 90]⟩ [1, 2, 3, 4] 0 0 1 1).getD
        (outIdx ⟨1, 2, 2, 255, [90, 90, 90, 90]⟩ 1 0 0) 0
      = ([1, 2, 3, 4] : List ℤ).getD (outIdx ⟨1, 2, 2, 255, [90, 90, 90, 90]⟩ 1 0 0) 0
    ∧ (pthreadRun blurKernel ⟨1, 2, 2, 255, [90, 90, 90, 90]⟩).pixels.getD
        (outIdx ⟨1, 2, 2, 255, [90, 90, 90, 90]⟩ 1 0 0) 0
      = (⟨1, 2, 2, 255, [90, 90, 90, 90]⟩ : Image).pixels.getD
        (outIdx ⟨1, 2, 2, 255, [90, 90, 90, 90]⟩ 1 0 0) 0 :=
  ⟨c9_frame_preservation.1 blurKernel ⟨1, 2, 2, 255, [90, 90, 90, 90]⟩ [1, 2, 3, 4]
      0 0 1 1 1 0 0 (by decide) (by decide) (by decide) (by decide) (by decide)
      (by decide) (by decide) (by decide) (by decide) (by decide),
   c9_frame_preservation.2 blurKernel ⟨1, 2, 2, 255, [90, 90, 90, 90]⟩ 1 0 0
      (by decide) (by decide) (by decide) (by decide) (by decide) (by decide)
      (by decide)⟩

/-- C10: with n = 5000000 and thread_count = 10, the per-rank index ranges
[rank * (n / thread_count), (rank + 1) * (n / thread_count)) tile [0, n)
exactly (every index belongs to exactly one rank), and for array entries in
[0, 1000) the double-precision accumulation is exact at every step, so the
final global sum equals the exact integer sum of all n entries no matter in
which order the mutex admits the ten partial sums. -/
theorem c10_benchmark_sum_exact (A : ℕ → ℤ) (hA : ∀ i, 0 ≤ A i ∧ A i < 1000)
    (ps : List F)
    (hperm : ps.Perm ((List.range Ej.thread_count).map (Ej.localSum A))) :
    (∀ i, i < Ej.n →
      ∃! r, r < Ej.thread_count ∧ Ej.my_first r ≤ i ∧ i < Ej.my_first r + Ej.my_n)
    ∧ Ej.globalSum ps = (((List.range Ej.n).map A).sum, 0) := by
  have hq : Ej.my_n = 500000 := my_n_val
  have htc : Ej.thread_count = 10 := rfl
  have hn : Ej.n = 5000000 := rfl
  constructor
  · intro i hi
    rw [hn] at hi
    refine ⟨i / 500000, ⟨?_, ?_, ?_⟩, fun r hr => ?_⟩
    · rw [htc]; omega
    · unfold Ej.my_first; rw [hq]; omega
    · unfold Ej.my_first; rw [hq]; omega
    · obtain ⟨hr1, hr2, hr3⟩ := hr
      rw [htc] at hr1
      unfold Ej.my_first at hr2 hr3
      rw [hq] at hr2 hr3
      omega
  · have hblock : ∀ r, ((Ej.blockIdx r).map A).sum ≤ 499500000
        ∧ 0 ≤ ((Ej.blockIdx r).map A).sum := by
      intro r
      have hmem : ∀ q ∈ (Ej.blockIdx r).map A, 0 ≤ q ∧ q ≤ 999 := by
        intro q hmq
        rw [List.mem_map] at hmq
        obtain ⟨w, _, rfl⟩ := hmq
        exact ⟨(hA w).1, by have := (hA w).2; omega⟩
      have hsb := sum_bound 999 _ hmem
      rw [List.length_map, blockIdx_length, hq] at hsb
      constructor
      · have : ((500000 : ℕ) : ℤ) * 999 = 499500000 := by norm_num
        omega
      · exact hsb.1
    have hmem : ∀ u ∈ ps, 0 ≤ u.1 ∧ u.2 = 0 := by
      intro u hu
      have hu2 := hperm.mem_iff.mp hu
      rw [List.mem_map] at hu2
      obtain ⟨r, _, rfl⟩ := hu2
      rw [localSum_exact A hA r]
      exact ⟨(hblock r).2, rfl⟩
    have hmm : ∀ l : List ℕ, (l.map (Ej.localSum A)).map Prod.fst
        = l.map fun r => ((Ej.blockIdx r).map A).sum := by
      intro l
      induction l with
      | nil => rfl
      | cons a l ih =>
        rw [List.map_cons, List.map_cons, List.map_cons, localSum_exact A hA a, ih]
    have hps_sum : (ps.map Prod.fst).sum
        = ((List.range Ej.thread_count).map
            fun r => ((Ej.blockIdx r).map A).sum).sum := by
      rw [(hperm.map Prod.fst).sum_eq, hmm]
    have hps_bound : (ps.map Prod.fst).sum < 2 ^ 53 := by
      rw [hps_sum, htc]
      have hlist : ∀ q ∈ (List.range 10).map
          (fun r => ((Ej.blockIdx r).map A).sum), 0 ≤ q ∧ q ≤ 499500000 := by
        intro q hmq
        rw [List.mem_map] at hmq
        obtain ⟨r, _, rfl⟩ := hmq
        exact ⟨(hblock r).2, (hblock r).1⟩
      have hsb := sum_bound 499500000 _ hlist
      rw [List.length_map, List.length_range] at hsb
      have h1 : ((10 : ℕ) : ℤ) * 499500000 = 4995000000 := by norm_num
      have h53 : (4995000000 : ℤ) < 2 ^ 53 := by norm_num
      omega
    unfold Ej.globalSum
    rw [fold_dadd_pairs ps 0 hmem le_rfl (by omega), zero_add, hps_sum,
      blocks_sum A Ej.thread_count,
      show Ej.thread_count * Ej.my_n = Ej.n from by decide,
      range'_zero_eq_range]

/-- C10 witness: the theorem applied to the constant array 5 with the ten
partial sums arriving in rank order. -/
theorem c10_benchmark_sum_exact_witness :
    (∀ i, i < Ej.n →
      ∃! r, r < Ej.thread_count ∧ Ej.my_first r ≤ i ∧ i < Ej.my_first r + Ej.my_n)
    ∧ Ej.globalSum ((List.range Ej.thread_count).map (Ej.localSum fun _ => 5))
      = (((List.range Ej.n).map fun _ => (5 : ℤ)).sum, 0) :=
  c10_benchmark_sum_exact (fun _ => 5) (fun _ => ⟨by norm_num, by norm_num⟩) _
    (List.Perm.refl _)
